import Mathlib
/-!
Verification development for the PGN viewer's core (ChessUtils in App.jsx):
the chunk splitter, header parser, move-text tokenizer, move-tree builder,
approximate SAN executor and the per-move position (FEN) assembler.

Modelling conventions:
* JavaScript `null`/`undefined` board cells are `Option Char` with `none`.
* A board is a list of rows of cells (row 0 = rank 8, as in the source).
* Code paths on which the JavaScript source would throw a runtime exception
  are modelled with `Except Unit`; `.error ()` marks the thrown exception.
* Strings are Lean `String`s; the scanner-style regex uses of the source are
  embedded as explicit character-list parsers with the same backtracking
  behaviour as the JavaScript regexes they translate.
-/

/-- The curly-brace characters, written via code points. -/
def lbrace : Char := Char.ofNat 123

def rbrace : Char := Char.ofNat 125

/-- JavaScript's `\s` character class (the set `String.prototype.trim` and the
tokenizer's whitespace alternative match). -/
def isJsSpace (ch : Char) : Bool :=
  ch.toNat = 9 || ch.toNat = 10 || ch.toNat = 11 || ch.toNat = 12 ||
  ch.toNat = 13 || ch.toNat = 32 || ch.toNat = 160 || ch.toNat = 5760 ||
  (8192 ≤ ch.toNat && ch.toNat ≤ 8202) || ch.toNat = 8232 ||
  ch.toNat = 8233 || ch.toNat = 8239 || ch.toNat = 8287 ||
  ch.toNat = 12288 || ch.toNat = 65279

/-- JavaScript `\d`. -/
def isDigitChar (ch : Char) : Bool := '0' ≤ ch && ch ≤ '9'

/-- JavaScript `\w`. -/
def isWordChar (ch : Char) : Bool :=
  ('a' ≤ ch && ch ≤ 'z') || ('A' ≤ ch && ch ≤ 'Z') || isDigitChar ch || ch = '_'

def digitVal (ch : Char) : Nat := ch.toNat - 48

/-- `String.prototype.trim` on a character list. -/
def jsTrimL (cs : List Char) : List Char :=
  ((cs.dropWhile isJsSpace).reverse.dropWhile isJsSpace).reverse

/-- `String.prototype.trim`. -/
def jsTrim (s : String) : String := String.mk (jsTrimL s.data)

/-- `str.split(d)` for a single-character separator `d` (JavaScript
semantics: adjacent separators yield empty segments, and the empty input
yields one empty segment). -/
def splitChar (d : Char) : List Char → List (List Char)
  | [] => [[]]
  | c :: rest =>
    if c = d then [] :: splitChar d rest
    else
      match splitChar d rest with
      | [] => [[c]]
      | g :: gs => (c :: g) :: gs

/-- `parts.join(d)` for a single-character separator. -/
def intercalChar (d : Char) : List (List Char) → List Char
  | [] => []
  | [x] => x
  | x :: y :: ys => x ++ d :: intercalChar d (y :: ys)

/-! ## Board representation and FEN conversion (fenToBoard / boardToFen) -/

abbrev Cell := Option Char

abbrev Board := List (List Cell)

def initialFen : String :=
  "rnbqkbnr/pppppppp/8/8/8/8/PPPPPPPP/RNBQKBNR w KQkq - 0 1"

/-- Write `v` at index `c`, padding with `none` when the index is past the end
(a JavaScript array assignment past the end creates holes, which read back as
`undefined`, i.e. as an empty cell). -/
def setExtC : List Cell → Nat → Cell → List Cell
  | [], 0, v => [v]
  | [], n + 1, v => none :: setExtC [] n v
  | _ :: xs, 0, v => v :: xs
  | x :: xs, n + 1, v => x :: setExtC xs n v

/-- Read `board[r][c]`; out-of-range reads are `undefined`, i.e. `none`. -/
def cell (b : Board) (r c : Nat) : Cell := (b.getD r []).getD c none

/-- Read `board[r][c]` at signed indices (a negative index reads a property
that is absent, i.e. `undefined`). -/
def cellI (b : Board) (r c : Int) : Cell :=
  if 0 ≤ r ∧ 0 ≤ c then cell b r.toNat c.toNat else none

/-- `board[r][c] = v` on a copy; the row write extends the row like the
JavaScript assignment does.  (Rows with index `≥ 8` are never written by the
source: every write uses an index bounded by the loops or by the SAN target
square, and boards built by `fenToBoard` always have exactly 8 rows.) -/
def setCell (b : Board) (r c : Nat) (v : Cell) : Board :=
  b.set r (setExtC (b.getD r []) c v)

/-- One row of `fenToBoard`: walk the rank segment, skipping over digit runs
and writing piece letters at the running column index, starting from the
row `Array(8).fill(null)`. -/
def fenRowFill (cells : List Cell) (c : Nat) : List Char → List Cell
  | [] => cells
  | ch :: rest =>
    if isDigitChar ch then fenRowFill cells (c + digitVal ch) rest
    else fenRowFill (setExtC cells c (some ch)) (c + 1) rest

/-- The `rows.forEach((row, r) => ...)` loop of `fenToBoard`.  For a rank
index `r ≥ 8` the JavaScript source reads `board[r]`, which is `undefined`;
the first piece letter in such a rank then throws a `TypeError`
(`undefined[c] = ch`).  A rank beyond index 7 made of digits only performs no
write and is silently ignored. -/
def fillRows (board : Board) (r : Nat) : List (List Char) → Except Unit Board
  | [] => .ok board
  | row :: rest =>
    if r < 8 then
      fillRows (board.set r (fenRowFill (board.getD r []) 0 row)) (r + 1) rest
    else if row.any (fun ch => ¬ isDigitChar ch) then .error ()
    else fillRows board (r + 1) rest

/-- `ChessUtils.fenToBoard`.  The empty string is falsy, so it falls back to
the initial position. -/
def fenToBoard (s : String) : Except Unit Board :=
  let fen := if s.data.isEmpty then initialFen else s
  let position := (splitChar ' ' fen.data).headD []
  fillRows (List.replicate 8 (List.replicate 8 none)) 0 (splitChar '/' position)

/-- The run-length encoding of one board row (the inner loop of
`boardToFen`); `k` is the continuation holding the already-rendered suffix. -/
def emitEmpty (n : Nat) (k : List Char) : List Char :=
  if n = 0 then k else (Nat.repr n).data ++ k

def rowFenAux : List Cell → Nat → List Char
  | [], empty => emitEmpty empty []
  | none :: rest, empty => rowFenAux rest (empty + 1)
  | some ch :: rest, empty => emitEmpty empty (ch :: rowFenAux rest 0)

def rowToFenL (row : List Cell) : List Char := rowFenAux row 0

/-- `ChessUtils.boardToFen`: the rank segments joined by `/`, the active
color, and the constant trailing fields. -/
def boardToFen (board : Board) (active : Char) : String :=
  String.mk (intercalChar '/' (board.map rowToFenL) ++
    ' ' :: active :: (String.mk [' '] ++ "KQkq - 0 1").data)

/-! ## SAN notation matching

The source matches move tokens against the anchored regex
`^([KQRNB])?([a-h])?([1-8])?(x)?([a-h])([1-8])(=([QRNB]))?[+#]?$`.
The parsers below implement it with the regex's greedy-optional
backtracking: each optional group is first tried as present, and on failure
of the remainder retried as absent. -/

def isFileChar (c : Char) : Bool := 'a' ≤ c && c ≤ 'h'

def isRankChar (c : Char) : Bool := '1' ≤ c && c ≤ '8'

def isPieceLetter (c : Char) : Bool :=
  c = 'K' || c = 'Q' || c = 'R' || c = 'N' || c = 'B'

def isPromoLetter (c : Char) : Bool :=
  c = 'Q' || c = 'R' || c = 'N' || c = 'B'

structure San where
  pieceType : Option Char
  sFile : Option Char
  sRank : Option Char
  hasCap : Bool
  tFile : Char
  tRank : Char
  promo : Option Char
deriving DecidableEq, Repr

/-- `(=([QRNB]))?[+#]?$`: the promotion suffix and check/mate marker. -/
def sanEnd : List Char → Option (Option Char)
  | [] => some none
  | ['+'] => some none
  | ['#'] => some none
  | '=' :: c :: rest =>
    if isPromoLetter c then
      match rest with
      | [] => some (some c)
      | ['+'] => some (some c)
      | ['#'] => some (some c)
      | _ => none
    else none
  | _ => none

/-- `([a-h])([1-8])` followed by `sanEnd`: the destination square. -/
def sanTgt : List Char → Option (Char × Char × Option Char)
  | f :: r :: rest =>
    if isFileChar f && isRankChar r then
      (sanEnd rest).map (fun p => (f, r, p))
    else none
  | _ => none

/-- `(x)?` followed by the destination. -/
def sanCapTgt (cs : List Char) : Option (Bool × Char × Char × Option Char) :=
  match cs with
  | 'x' :: rest =>
    match sanTgt rest with
    | some (f, r, p) => some (true, f, r, p)
    | none => (sanTgt cs).map (fun (f, r, p) => (false, f, r, p))
  | _ => (sanTgt cs).map (fun (f, r, p) => (false, f, r, p))

/-- `([1-8])?` (source rank disambiguation) followed by the rest. -/
def sanSrcRank (cs : List Char) :
    Option (Option Char × Bool × Char × Char × Option Char) :=
  match cs with
  | c :: rest =>
    if isRankChar c then
      match sanCapTgt rest with
      | some t => some (some c, t)
      | none => (sanCapTgt cs).map (fun t => (none, t))
    else (sanCapTgt cs).map (fun t => (none, t))
  | [] => (sanCapTgt cs).map (fun t => (none, t))

/-- `([a-h])?` (source file disambiguation) followed by the rest. -/
def sanSrcFile (cs : List Char) :
    Option (Option Char × Option Char × Bool × Char × Char × Option Char) :=
  match cs with
  | c :: rest =>
    if isFileChar c then
      match sanSrcRank rest with
      | some t => some (some c, t)
      | none => (sanSrcRank cs).map (fun t => (none, t))
    else (sanSrcRank cs).map (fun t => (none, t))
  | [] => (sanSrcRank cs).map (fun t => (none, t))

/-- The full anchored SAN regex of `executeMove`. -/
def matchSan (cs : List Char) : Option San :=
  match cs with
  | c :: rest =>
    if isPieceLetter c then
      match sanSrcFile rest with
      | some (sf, sr, cap, tf, tr, pr) => some ⟨some c, sf, sr, cap, tf, tr, pr⟩
      | none =>
        (sanSrcFile cs).map (fun (sf, sr, cap, tf, tr, pr) =>
          ⟨none, sf, sr, cap, tf, tr, pr⟩)
    else
      (sanSrcFile cs).map (fun (sf, sr, cap, tf, tr, pr) =>
        ⟨none, sf, sr, cap, tf, tr, pr⟩)
  | [] => none

/-! ## Move nodes

A parsed move node.  The source stores `number` as the fullmove number for
White and the fullmove number plus `0.5` for Black; we store twice that value
in `numberTwice` to stay within `Nat` (the encoding is injective and order
preserving).  The source's `move` and `san` fields are always set to the same
token string, so a single `san` field represents both.  `fenAfter` is the
empty string until the assembler (`processSequence`) fills it in, matching
the field being absent before assembly. -/

inductive MoveNode : Type where
  | mk (numberTwice : Nat) (san : String) (isWhite : Bool) (comment : String)
      (fenAfter : String) (variations : List (List MoveNode)) : MoveNode

def MoveNode.numberTwice : MoveNode → Nat
  | .mk n _ _ _ _ _ => n

def MoveNode.san : MoveNode → String
  | .mk _ s _ _ _ _ => s

def MoveNode.isWhite : MoveNode → Bool
  | .mk _ _ w _ _ _ => w

def MoveNode.comment : MoveNode → String
  | .mk _ _ _ cm _ _ => cm

def MoveNode.fenAfter : MoveNode → String
  | .mk _ _ _ _ f _ => f

def MoveNode.variations : MoveNode → List (List MoveNode)
  | .mk _ _ _ _ _ v => v

/-! ## The move executor (executeMove / executeCastlingForColor) -/

/-- `ChessUtils.executeCastlingForColor`: move king and rook to their fixed
castling squares on a copy of the board. -/
def executeCastlingForColor (board : Board) (isWhite kingside : Bool) : Board :=
  let row := if isWhite then 7 else 0
  let kc : Cell := some (if isWhite then 'K' else 'k')
  let rc : Cell := some (if isWhite then 'R' else 'r')
  if kingside then
    setCell (setCell (setCell (setCell board row 4 none) row 6 kc) row 7 none) row 5 rc
  else
    setCell (setCell (setCell (setCell board row 4 none) row 2 kc) row 0 none) row 3 rc

/-- The pawn-specific candidate test of the enumeration loop. -/
def pawnOk (b : Board) (isWhite : Bool) (tRow tCol r c : Nat) : Bool :=
  let dir : Int := if isWhite then -1 else 1
  let rd : Int := (tRow : Int) - (r : Int)
  let cd : Int := (tCol : Int) - (c : Int)
  let tgt := cell b tRow tCol
  let fwd := cd == 0 && tgt == none
  let single := cd == 0 && rd == dir && fwd
  let dbl := cd == 0 &&
    ((isWhite && r == 6 && rd == -2) || (!isWhite && r == 1 && rd == 2)) &&
    cellI b ((r : Int) + dir) (c : Int) == none && fwd
  let cap := cd.natAbs == 1 && rd == dir && tgt != none
  single || dbl || cap

/-- Whether square `(r, c)` enters `potentials`: it holds the demanded piece,
satisfies the explicit source-file/rank disambiguation, and for pawns the
geometry of the implied pawn action. -/
def isPotential (b : Board) (sp : San) (isWhite : Bool) (tRow tCol r c : Nat) : Bool :=
  let base := sp.pieceType.getD 'P'
  let piece := if isWhite then base.toUpper else base.toLower
  cell b r c == some piece &&
  (match sp.sFile with
   | some f => f == Char.ofNat (97 + c)
   | none => true) &&
  (match sp.sRank with
   | some rk => rk == Char.ofNat (48 + (8 - r))
   | none => true) &&
  (if base = 'P' then pawnOk b isWhite tRow tCol r c else true)

/-- The row-major candidate enumeration (`potentials`). -/
def potentialsOf (b : Board) (sp : San) (isWhite : Bool) (tRow tCol : Nat) :
    List (Nat × Nat) :=
  (List.range 8).flatMap (fun r =>
    ((List.range 8).filter (fun c => isPotential b sp isWhite tRow tCol r c)).map
      (fun c => (r, c)))

/-- `n - 1` intermediate squares along a ray starting one step from `(r, c)`
must be empty (the body of the blocking-piece loops). -/
def rayEmpty (b : Board) (r c sr sc : Int) : Nat → Bool
  | 0 => true
  | n + 1 => cellI b (r + sr) (c + sc) == none && rayEmpty b (r + sr) (c + sc) sr sc n

def signOf (d : Int) : Int := if 0 < d then 1 else -1

def signOfZ (d : Int) : Int := if d = 0 then 0 else signOf d

/-- The movement-geometry filter predicate for one candidate.  When a bishop
or queen candidate already stands on the destination square, the source
computes a step of `0 / 0 = NaN` and its ray loop dereferences
`board[NaN][NaN]`, throwing a `TypeError`; that path is `.error ()`. -/
def geomOk (b : Board) (base : Char) (tRow tCol : Nat) (rc : Nat × Nat) :
    Except Unit Bool :=
  let r := rc.1
  let c := rc.2
  let dr : Int := (tRow : Int) - (r : Int)
  let dc : Int := (tCol : Int) - (c : Int)
  let ar := dr.natAbs
  let ac := dc.natAbs
  let p := base.toUpper
  if p = 'N' then .ok ((ar == 2 && ac == 1) || (ar == 1 && ac == 2))
  else if p = 'B' then
    if ar ≠ ac then .ok false
    else if ar = 0 then .error ()
    else .ok (rayEmpty b r c (signOf dr) (signOf dc) (ar - 1))
  else if p = 'R' then
    if dr ≠ 0 ∧ dc ≠ 0 then .ok false
    else .ok (rayEmpty b r c (signOfZ dr) (signOfZ dc) (max ar ac - 1))
  else if p = 'Q' then
    if ar = ac then
      if ar = 0 then .error ()
      else .ok (rayEmpty b r c (signOf dr) (signOf dc) (ar - 1))
    else if dr = 0 ∨ dc = 0 then
      .ok (rayEmpty b r c (signOfZ dr) (signOfZ dc) (max ar ac - 1))
    else .ok false
  else if p = 'K' then .ok (decide (ar ≤ 1) && decide (ac ≤ 1))
  else .ok true

/-- `potentials.filter(...)` under the geometry predicate; the first thrown
exception aborts the whole filter. -/
def filterGeomE (b : Board) (base : Char) (tRow tCol : Nat) :
    List (Nat × Nat) → Except Unit (List (Nat × Nat))
  | [] => .ok []
  | rc :: rest => do
    let keep ← geomOk b base tRow tCol rc
    let tail ← filterGeomE b base tRow tCol rest
    pure (if keep then rc :: tail else tail)

/-- `ChessUtils.executeMove`, with its outcome flag.  The first component is
the board the call returns.  The second component is `true` exactly on the
`catch` path (the geometry filter threw), where the source executes
`return board;` — handing back the very board object it was given rather
than the copy `b`; on every other path the returned board is the freshly
copied `b` (or a further copy made by `executeCastlingForColor`). -/
def executeMoveA (board : Board) (m : MoveNode) : Board × Bool :=
  let b := board
  let san := jsTrim m.san
  if san.data.isEmpty then (b, false)
  else if san = "O-O" ∨ san = "0-0" then
    (executeCastlingForColor b m.isWhite true, false)
  else if san = "O-O-O" ∨ san = "0-0-0" then
    (executeCastlingForColor b m.isWhite false, false)
  else
    match matchSan san.data with
    | none => (b, false)
    | some sp =>
      let base := sp.pieceType.getD 'P'
      let tCol := sp.tFile.toNat - 97
      let tRow := 8 - (sp.tRank.toNat - 48)
      let pots := potentialsOf b sp m.isWhite tRow tCol
      if pots.isEmpty then (b, false)
      else
        match filterGeomE b base tRow tCol pots with
        | .error _ => (board, true)
        | .ok valid =>
          let rc := match valid with
            | v :: _ => v
            | [] => pots.headD (0, 0)
          let b1 := setCell b tRow tCol (cell b rc.1 rc.2)
          let b2 := setCell b1 rc.1 rc.2 none
          let b3 := match sp.promo with
            | some pr =>
              setCell b2 tRow tCol (some (if m.isWhite then pr.toUpper else pr.toLower))
            | none => b2
          (b3, false)

def executeMove (board : Board) (m : MoveNode) : Board := (executeMoveA board m).1

def startBoard : Board :=
  [[some 'r', some 'n', some 'b', some 'q', some 'k', some 'b', some 'n', some 'r'],
   [some 'p', some 'p', some 'p', some 'p', some 'p', some 'p', some 'p', some 'p'],
   [none, none, none, none, none, none, none, none],
   [none, none, none, none, none, none, none, none],
   [none, none, none, none, none, none, none, none],
   [none, none, none, none, none, none, none, none],
   [some 'P', some 'P', some 'P', some 'P', some 'P', some 'P', some 'P', some 'P'],
   [some 'R', some 'N', some 'B', some 'Q', some 'K', some 'B', some 'N', some 'R']]

/-! ## The move-text tokenizer

The source splits the joined move text with the capturing regex
`(\{[^}]*\}|\(|\)|\d+\.\.\.|\d+\.|\s+)` and keeps both the delimiters
(captured groups) and the text runs between them, then filters out empty and
all-whitespace pieces.  `tryDelim` recognises one delimiter alternative at
the current position (in the regex's alternation order); positions where no
alternative matches contribute to a plain text run. -/

def tryDelim (cs : List Char) : Option (List Char × List Char) :=
  match cs with
  | [] => none
  | c :: rest =>
    if c = lbrace then
      let inner := rest.takeWhile (fun ch => ch ≠ rbrace)
      match rest.drop inner.length with
      | ch :: rest' =>
        if ch = rbrace then some (c :: inner ++ [ch], rest') else none
      | [] => none
    else if c = '(' then some (['('], rest)
    else if c = ')' then some ([')'], rest)
    else if isDigitChar c then
      let ds := (c :: rest).takeWhile isDigitChar
      let after := (c :: rest).drop ds.length
      match after with
      | '.' :: '.' :: '.' :: rest' => some (ds ++ ['.', '.', '.'], rest')
      | '.' :: rest' => some (ds ++ ['.'], rest')
      | _ => none
    else if isJsSpace c then
      let ws := (c :: rest).takeWhile isJsSpace
      some (ws, (c :: rest).drop ws.length)
    else none

/-- The scanner over the move string; `fuel` bounds the recursion and is
instantiated with the input length (each step consumes at least one
character, so the fuel never runs out). -/
def tokScanF : Nat → List Char → List Char → List (List Char)
  | 0, cs, acc => [(acc.reverse ++ cs)]
  | _ + 1, [], acc => [acc.reverse]
  | n + 1, c :: rest, acc =>
    match tryDelim (c :: rest) with
    | some (tok, rest') => acc.reverse :: tok :: tokScanF n rest' []
    | none => tokScanF n rest (c :: acc)

/-- `movesString.split(regex).filter(t => t && t.trim())`. -/
def tokenizeMoves (s : String) : List String :=
  ((tokScanF s.data.length s.data []).filter
    (fun t => ¬ t.isEmpty ∧ ¬ (jsTrimL t).isEmpty)).map (fun t => String.mk t)

/-! ## The move-tree builder

The builder's loop state.  The source keeps a `sequenceStack` array whose
last element is the innermost open sequence; we model the stack as a list
with the innermost open sequence at the head (the base of the stack — the
main line — is the last element). -/

structure BState where
  stack : List (List MoveNode)
  comment : String
  expectingBlack : Bool
  moveNumber : Nat

def initB : BState := ⟨[[]], "", false, 1⟩

/-- `^(\d+)(\.\.\.)?\.?$`: a move-number token, giving the number and whether
the three-dot (Black to move) form was used. -/
def numParse (cs : List Char) : Option (Nat × Bool) :=
  let ds := cs.takeWhile isDigitChar
  if ds.isEmpty then none
  else
    let n := ds.foldl (fun acc ch => 10 * acc + digitVal ch) 0
    match cs.drop ds.length with
    | [] => some (n, false)
    | ['.'] => some (n, false)
    | ['.', '.', '.'] => some (n, true)
    | ['.', '.', '.', '.'] => some (n, true)
    | _ => none

/-- The tokenizer-level SAN test: the SAN grammar or a castling token. -/
def isSanTok (tok : String) : Bool :=
  tok = "O-O" || tok = "O-O-O" || tok = "0-0" || tok = "0-0-0" ||
  (matchSan tok.data).isSome

/-- Append `v` to the `variations` of the last node of `seq` (the `)`
handler body when the enclosing sequence is non-empty). -/
def attachVar (seq : List MoveNode) (v : List MoveNode) : List MoveNode :=
  match seq.getLast? with
  | none => seq
  | some (.mk n s w cm f vars) => seq.dropLast ++ [.mk n s w cm f (vars ++ [v])]

/-- One iteration of the builder loop over a raw token.  The `)` handler
pops the top of the stack; if that leaves the stack empty (a close token
while only the main line was open), the source reads
`sequenceStack[-1][... .length - 1]`, i.e. a property of `undefined`, and
throws — modelled as `.error ()`. -/
def tokStep (s : BState) (tk : String) : Except Unit BState :=
  let tok := jsTrim tk
  if tok.data.isEmpty then .ok s
  else if tok.data.head? = some lbrace ∧ tok.data.getLast? = some rbrace then
    .ok { s with comment := String.mk (jsTrimL (tok.data.drop 1).dropLast) }
  else if tok = "(" then .ok { s with stack := [] :: s.stack }
  else if tok = ")" then
    match s.stack with
    | [] => .error ()
    | finished :: rest =>
      match rest with
      | [] => .error ()
      | top :: more =>
        if top.isEmpty then .ok { s with stack := rest }
        else .ok { s with stack := attachVar top finished :: more }
  else
    match numParse tok.data with
    | some (n, blk) => .ok { s with moveNumber := n, expectingBlack := blk }
    | none =>
      if isSanTok tok then
        let isW := !s.expectingBlack
        let node : MoveNode :=
          .mk (if isW then 2 * s.moveNumber else 2 * s.moveNumber + 1)
            tok isW s.comment "" []
        match s.stack with
        | [] => .error ()
        | top :: more =>
          .ok { stack := (top ++ [node]) :: more, comment := "",
                expectingBlack := isW,
                moveNumber := if isW then s.moveNumber else s.moveNumber + 1 }
      else .ok s

/-- The whole builder loop. -/
def tokFold (toks : List String) (s : BState) : Except Unit BState :=
  toks.foldlM tokStep s

/-- At the end of the loop the result is the `moves` array — the base of the
stack; sequences left open by unbalanced `(` are simply dropped. -/
def extractMoves (s : BState) : List MoveNode := s.stack.getLastD []

/-! ## The game assembler (processSequence) -/

mutual

/-- `processSequence`: walk a sequence, threading the current board through
`executeMove`, stamping each node's `fenAfter` from the board after its move,
and re-seeding every variation from the board **before** the node's move
(the `beforeBoard` snapshot of the source). -/
def processSequence (board : Board) : List MoveNode → List MoveNode
  | [] => []
  | .mk n sn w cm fe vars :: rest =>
    let afterB := executeMove board (.mk n sn w cm fe vars)
    MoveNode.mk n sn w cm (boardToFen afterB (if w then 'b' else 'w'))
        (processVars board vars) ::
      processSequence afterB rest

def processVars (board : Board) : List (List MoveNode) → List (List MoveNode)
  | [] => []
  | v :: vs => processSequence board v :: processVars board vs

end

/-! ## Chunk processing and parsePGN -/

/-- The header-line regex `^\[(\w+)\s+"([^"]*)"\]$`. -/
def headerMatch (t : String) : Option (String × String) :=
  match t.data with
  | '[' :: rest =>
    let key := rest.takeWhile isWordChar
    if key.isEmpty then none
    else
      let r1 := rest.drop key.length
      let sp := r1.takeWhile isJsSpace
      if sp.isEmpty then none
      else
        match r1.drop sp.length with
        | '"' :: r2 =>
          let v := r2.takeWhile (fun ch => ch ≠ '"')
          match r2.drop v.length with
          | '"' :: ']' :: [] => some (String.mk key, String.mk v)
          | _ => none
        | _ => none
  | _ => none

/-- `headers[key] = value`: later occurrences overwrite in place (a
JavaScript object keeps the first insertion position). -/
def setHeader (hs : List (String × String)) (k v : String) : List (String × String) :=
  if hs.any (fun p => p.1 = k) then
    hs.map (fun p => if p.1 = k then (k, v) else p)
  else hs ++ [(k, v)]

def getHeader (hs : List (String × String)) (k : String) : Option String :=
  (hs.find? (fun p => p.1 = k)).map (fun p => p.2)

/-- The per-chunk header/move-text line loop: blank lines are skipped; while
in header mode a line starting with `[` is consumed as a (possible) header
and otherwise ignored; the first non-blank line not starting with `[` ends
header mode permanently and every later non-blank line is collected (in
trimmed form) as move text. -/
def headerPhase (lines : List String) (inH : Bool)
    (hs : List (String × String)) (mt : List String) :
    List (String × String) × List String :=
  match lines with
  | [] => (hs, mt)
  | line :: rest =>
    let t := jsTrim line
    if t.data.isEmpty then headerPhase rest inH hs mt
    else if inH ∧ t.data.head? = some '[' then
      match headerMatch t with
      | some (k, v) => headerPhase rest inH (setHeader hs k v) mt
      | none => headerPhase rest inH hs mt
    else headerPhase rest false hs (mt ++ [t])

def chunkLines (raw : String) : List String :=
  (splitChar '\n' raw.data).map (fun l => String.mk l)

def chunkHeaders (raw : String) : List (String × String) :=
  (headerPhase (chunkLines raw) true [] []).1

def chunkMoveText (raw : String) : List String :=
  (headerPhase (chunkLines raw) true [] []).2

def chunkTokens (raw : String) : List String :=
  tokenizeMoves (String.intercalate (String.mk [' ']) (chunkMoveText raw))

/-- The starting FEN of a chunk: the `FEN` header when it is a non-empty
string and `SetUp` is `"1"` or `"true"`, else the initial position. -/
def chunkStartFen (hs : List (String × String)) : String :=
  match getHeader hs "FEN" with
  | some f =>
    if ¬ f.data.isEmpty ∧
        (getHeader hs "SetUp" = some "1" ∨ getHeader hs "SetUp" = some "true") then
      jsTrim f
    else initialFen
  | none => initialFen

structure Game where
  headers : List (String × String)
  moves : List MoveNode
  initialFenG : String

/-- Process one chunk inside the per-chunk `try`: build the tree from the
tokens, derive the starting board, assemble per-move FENs, and emit a game
record when there are moves or headers.  `.error ()` is any exception
thrown while processing the chunk (caught by the source's `catch`, which
skips the chunk). -/
def chunkGameE (raw : String) : Except Unit (Option Game) := do
  let hs := chunkHeaders raw
  let st ← tokFold (chunkTokens raw) initB
  let moves := extractMoves st
  let startFen := chunkStartFen hs
  let b ← fenToBoard startFen
  let movesWithFen := processSequence b moves
  pure (if ¬ movesWithFen.isEmpty ∨ ¬ hs.isEmpty then
    some ⟨hs, movesWithFen, startFen⟩ else none)

def chunkResult (raw : String) : Option Game :=
  match chunkGameE raw with
  | .ok g => g
  | .error _ => none

/-- Lookahead of the chunk-splitting regex: `(?=\[Event\s)`. -/
def eventAhead (cs : List Char) : Bool :=
  cs.take 6 = "[Event".data ∧ ((cs.drop 6).head?.map isJsSpace).getD false

/-- `pgnText.replace(/\r/g, '').split(/\n{2,}(?=\[Event\s)/g)`: split at
every maximal run of two or more newlines that is immediately followed by
the start of a new `[Event` header.  Fuel-driven scanner like the move
tokenizer. -/
def splitGamesF : Nat → List Char → List Char → List (List Char)
  | 0, cs, acc => [acc.reverse ++ cs]
  | _ + 1, [], acc => [acc.reverse]
  | n + 1, c :: rest, acc =>
    if c = '\n' ∧ rest.head? = some '\n' then
      let run := (c :: rest).takeWhile (fun ch => ch = '\n')
      let after := (c :: rest).drop run.length
      if eventAhead after then acc.reverse :: splitGamesF n after []
      else splitGamesF n rest (c :: acc)
    else splitGamesF n rest (c :: acc)

def splitGames (s : String) : List String :=
  let cs := s.data.filter (fun ch => ch ≠ '\r')
  (splitGamesF cs.length cs []).map (fun l => String.mk l)

/-- One or more digits immediately followed by a dot occur somewhere:
`/\d+\./.test(s)`. -/
def hasNumDot : List Char → Bool
  | [] => false
  | d :: rest =>
    (isDigitChar d && rest.head? == some '.') || hasNumDot rest

/-- `haystack.includes(pat)` on character lists. -/
def containsSub (pat : List Char) : List Char → Bool
  | [] => pat.isEmpty
  | c :: rest => pat.isPrefixOf (c :: rest) || containsSub pat rest

/-- The chunk content filter: keep a trimmed chunk only when it is
non-empty and contains the literal `[Event` or some digits followed by a
dot. -/
def contentFilter (s : String) : Bool :=
  ¬ s.data.isEmpty && (containsSub "[Event".data s.data || hasNumDot s.data)

/-- The filtered chunk list `rawGames`. -/
def rawGamesOf (text : String) : List String :=
  ((splitGames text).map jsTrim).filter contentFilter

def processChunks (cs : List String) : List Game := cs.filterMap chunkResult

/-- `ChessUtils.parsePGN`. -/
def parsePGN (text : String) : List Game :=
  if (jsTrim text).data.isEmpty then []
  else processChunks (rawGamesOf text)

/-! ## Lemmas about the game assembler -/

/-- The board reached after applying the first `i` moves of `seq` to `b`. -/
def boardAt (b : Board) (seq : List MoveNode) (i : Nat) : Board :=
  (seq.take i).foldl executeMove b

/-! ## C1: unresolvable notation at board-application time -/

def isCastleTok (s : String) : Bool :=
  s = "O-O" || s = "0-0" || s = "O-O-O" || s = "0-0-0"

/-- The candidate enumeration of `executeMove` comes up empty for this
node's token: the token is non-castling, matches the SAN grammar, and no
square passes the piece/disambiguation/pawn-action scan. -/
def zeroCand (b : Board) (m : MoveNode) : Bool :=
  let san := jsTrim m.san
  (!san.data.isEmpty && !isCastleTok san) &&
  (match matchSan san.data with
   | some sp =>
     (potentialsOf b sp m.isWhite (8 - (sp.tRank.toNat - 48)) (sp.tFile.toNat - 97)).isEmpty
   | none => false)

/-! ## Builder-level lemmas: comment handling -/

/-- The token classifies as a comment in the builder loop: non-blank after
trimming, first character an opening brace and last character a closing
brace. -/
def isCommentTok (t : String) : Bool :=
  let tok := jsTrim t
  !tok.data.isEmpty && tok.data.head? == some lbrace && tok.data.getLast? == some rbrace

/-- The comment text the builder stashes for such a token:
`tok.slice(1, -1).trim()`. -/
def commentText (t : String) : String :=
  String.mk (jsTrimL ((jsTrim t).data.drop 1).dropLast)

/-! ## Builder-level lemmas: token classes and the san step -/

/-- The token takes the move (`sanRegex`) branch of the builder loop: it is
non-blank, not a comment, not a parenthesis, not a move number, and passes
the SAN test. -/
def isSanClass (t : String) : Bool :=
  let tok := jsTrim t
  !tok.data.isEmpty &&
  !(tok.data.head? == some lbrace && tok.data.getLast? == some rbrace) &&
  !(tok == "(") && !(tok == ")") && (numParse tok.data).isNone && isSanTok tok

/-- The token takes neither the comment branch nor the move branch: blank,
a parenthesis, a move number, or an unrecognized (discarded) token. -/
def isNeutralTok (t : String) : Bool :=
  let tok := jsTrim t
  tok.data.isEmpty ||
  (!(tok.data.head? == some lbrace && tok.data.getLast? == some rbrace) &&
   (tok == "(" || tok == ")" || (numParse tok.data).isSome || !isSanTok tok))

/-! ## C7: the header-mode transition -/

/-- Modelled from the claim: "the first non-blank line that does not match
the header shape `[<Key> "<Value>"]` ends header parsing for the remainder
of the chunk, and the transition is permanent".  Identical to `headerPhase`
except that the transition test is failure of the full header-shape match
rather than the line's first character. -/
def c7SpecPhase (lines : List String) (inH : Bool)
    (hs : List (String × String)) (mt : List String) :
    List (String × String) × List String :=
  match lines with
  | [] => (hs, mt)
  | line :: rest =>
    let t := jsTrim line
    if t.data.isEmpty then c7SpecPhase rest inH hs mt
    else if inH then
      match headerMatch t with
      | some (k, v) => c7SpecPhase rest true (setHeader hs k v) mt
      | none => c7SpecPhase rest false hs (mt ++ [t])
    else c7SpecPhase rest false hs (mt ++ [t])

/-- A line that ends header mode in the source: non-blank after trimming
and not starting with `[`. -/
def c7NotHeaderLine (l : String) : Bool :=
  !(jsTrim l).data.isEmpty && !((jsTrim l).data.head? == some '[')

/-- The effect of one header-mode line on the collected headers. -/
def hdrStep (hs : List (String × String)) (l : String) : List (String × String) :=
  match headerMatch (jsTrim l) with
  | some (k, v) => setHeader hs k v
  | none => hs

/-- The amended description of the header phase: headers are collected from
every line before the first non-blank line not starting with `[`; that line
and every later non-blank line (trimmed) form the move text. -/
def c7AmendedPhase (lines : List String) : List (String × String) × List String :=
  ((lines.take (lines.findIdx c7NotHeaderLine)).foldl hdrStep [],
   ((lines.drop (lines.findIdx c7NotHeaderLine)).map jsTrim).filter
     (fun t => !t.data.isEmpty))

/-! ## C3: the FEN round trip -/

def pieceChars : List Char :=
  ['K', 'Q', 'R', 'B', 'N', 'P', 'k', 'q', 'r', 'b', 'n', 'p']

/-- A cell is empty or holds a valid piece letter. -/
def cellOk : Cell → Bool
  | none => true
  | some ch => decide (ch ∈ pieceChars)

/-- An 8×8 board whose cells are all empty or valid piece letters. -/
def validBoard (b : Board) : Bool :=
  b.length == 8 && b.all (fun row => row.length == 8 && row.all cellOk)

/-- Writing a row's cells one square at a time, skipping empties. -/
def writeCells (cells : List Cell) (c : Nat) : List Cell → List Cell
  | [] => cells
  | none :: rest => writeCells cells (c + 1) rest
  | some ch :: rest => writeCells (setExtC cells c (some ch)) (c + 1) rest

/-! ## Theorems -/

example : boardToFen (List.replicate 8 (List.replicate 8 none)) 'w' =
    "8/8/8/8/8/8/8/8 w KQkq - 0 1" := by rfl

example : fenToBoard "" = fenToBoard initialFen := by rfl

example : matchSan "e4".data = some ⟨none, none, none, false, 'e', '4', none⟩ := by rfl

example : matchSan "exd5".data = some ⟨none, some 'e', none, true, 'd', '5', none⟩ := by rfl

example : matchSan "Nbd2".data = some ⟨some 'N', some 'b', none, false, 'd', '2', none⟩ := by rfl

example : matchSan "R1a3".data = some ⟨some 'R', none, some '1', false, 'a', '3', none⟩ := by rfl

example : matchSan "e8=Q+".data = some ⟨none, none, none, false, 'e', '8', some 'Q'⟩ := by rfl

example : matchSan "Kxe2#".data = some ⟨some 'K', none, none, true, 'e', '2', none⟩ := by rfl

example : matchSan "ed5".data = some ⟨none, some 'e', none, false, 'd', '5', none⟩ := by rfl

example : matchSan "e45".data = none := by rfl

example : matchSan "O-O".data = none := by rfl

example : matchSan "1-0".data = none := by rfl

example : fenToBoard initialFen = .ok startBoard := by rfl

example :
    executeMove startBoard (.mk 2 "e4" true "" "" []) =
      (setCell (setCell startBoard 4 4 (some 'P')) 6 4 none) := by rfl

example :
    boardToFen (executeMove startBoard (.mk 2 "e4" true "" "" [])) 'b' =
      "rnbqkbnr/pppppppp/8/8/4P3/8/PPPP1PPP/RNBQKBNR b KQkq - 0 1" := by rfl

example :
    executeMove startBoard (.mk 2 "Rd4" true "" "" []) =
      (setCell (setCell startBoard 4 3 (some 'R')) 7 0 none) := by rfl

example :
    executeMoveA [[some 'B']] (.mk 2 "Ba8" true "" "" []) = ([[some 'B']], true) := by rfl

example :
    tokenizeMoves "1. e4 e5 (1... c5) 2. Nf3" =
      ["1.", "e4", "e5", "(", "1...", "c5", ")", "2.", "Nf3"] := by rfl

example : tokenizeMoves "1.e4 \x7bgood\x7d 1-0" = ["1.", "e4", "\x7bgood\x7d", "1-0"] := by rfl

theorem boardAt_zero (b : Board) (seq : List MoveNode) : boardAt b seq 0 = b := rfl

theorem boardAt_cons_succ (b : Board) (m : MoveNode) (rest : List MoveNode) (i : Nat) :
    boardAt b (m :: rest) (i + 1) = boardAt (executeMove b m) rest i := by
  simp [boardAt]

theorem processVars_eq_map (b : Board) (l : List (List MoveNode)) :
    processVars b l = l.map (processSequence b) := by
  induction l with
  | nil => simp [processVars]
  | cons v vs ih => simp [processVars, ih]

theorem processSequence_nil (b : Board) : processSequence b [] = [] := by
  simp [processSequence]

theorem processSequence_cons (b : Board) (n : Nat) (s : String) (w : Bool)
    (cm fe : String) (vars : List (List MoveNode)) (rest : List MoveNode) :
    processSequence b (.mk n s w cm fe vars :: rest) =
      MoveNode.mk n s w cm
          (boardToFen (executeMove b (.mk n s w cm fe vars)) (if w then 'b' else 'w'))
          (vars.map (fun v => processSequence b v)) ::
        processSequence (executeMove b (.mk n s w cm fe vars)) rest := by
  simp [processSequence, processVars_eq_map]

theorem processSequence_length (b : Board) (seq : List MoveNode) :
    (processSequence b seq).length = seq.length := by
  induction seq generalizing b with
  | nil => simp [processSequence_nil]
  | cons m rest ih =>
    obtain ⟨n, s, w, cm, fe, v⟩ := m
    rw [processSequence_cons]
    simp [ih]

theorem processSequence_get? (seq : List MoveNode) (b : Board) (i : Nat) :
    (processSequence b seq).get? i = (seq.get? i).map (fun m =>
      MoveNode.mk m.numberTwice m.san m.isWhite m.comment
        (boardToFen (executeMove (boardAt b seq i) m) (if m.isWhite then 'b' else 'w'))
        (m.variations.map (fun v => processSequence (boardAt b seq i) v))) := by
  induction seq generalizing b i with
  | nil => simp [processSequence_nil]
  | cons m rest ih =>
    obtain ⟨n, s, w, cm, fe, v⟩ := m
    rw [processSequence_cons]
    cases i with
    | zero =>
      simp [boardAt_zero, MoveNode.numberTwice, MoveNode.san,
        MoveNode.isWhite, MoveNode.comment, MoveNode.variations]
    | succ j =>
      simp only [List.get?_cons_succ, boardAt_cons_succ]
      exact ih (executeMove b (.mk n s w cm fe v)) j

theorem boardAt_succ_of_get? (b : Board) (seq : List MoveNode) (i : Nat) (m : MoveNode)
    (h : seq.get? i = some m) :
    boardAt b seq (i + 1) = executeMove (boardAt b seq i) m := by
  induction seq generalizing b i with
  | nil => simp at h
  | cons hd rest ih =>
    cases i with
    | zero =>
      simp at h
      subst h
      simp [boardAt_cons_succ, boardAt_zero]
    | succ j =>
      simp only [List.get?_cons_succ] at h
      rw [boardAt_cons_succ, boardAt_cons_succ]
      exact ih (executeMove b hd) j h

/-- C2.  For every sequence and index, the assembled node's variations are the
variation sequences processed starting from the board **before** that node's
own move (`boardAt b seq i`), while the node's own `fenAfter` — and hence the
continuation of the node's own sequence, by `boardAt_succ_of_get?` — is taken
from the board **after** the node's move (`executeMove (boardAt b seq i) m`).
The Game Assembler therefore seeds every variation from the pre-move
snapshot and threads the post-move snapshot through the rest of the
sequence. -/
theorem variation_seeding (b : Board) (seq : List MoveNode) (i : Nat) :
    ((processSequence b seq).get? i).map MoveNode.variations =
      (seq.get? i).map (fun m => m.variations.map (processSequence (boardAt b seq i))) ∧
    ((processSequence b seq).get? i).map MoveNode.fenAfter =
      (seq.get? i).map (fun m =>
        boardToFen (executeMove (boardAt b seq i) m) (if m.isWhite then 'b' else 'w')) ∧
    (∀ m : MoveNode, seq.get? i = some m →
      boardAt b seq (i + 1) = executeMove (boardAt b seq i) m ∧
      ((processSequence b seq).get? i).map MoveNode.fenAfter =
        some (boardToFen (boardAt b seq (i + 1)) (if m.isWhite then 'b' else 'w'))) := by
  refine ⟨?_, ?_, ?_⟩
  · rw [processSequence_get?]
    cases seq.get? i with
    | none => rfl
    | some m => simp [MoveNode.variations, processVars_eq_map]
  · rw [processSequence_get?]
    cases seq.get? i with
    | none => rfl
    | some m => simp [MoveNode.fenAfter]
  · intro m hm
    have hb := boardAt_succ_of_get? b seq i m hm
    refine ⟨hb, ?_⟩
    rw [processSequence_get?, hm, hb]
    simp [MoveNode.fenAfter]

/-- Witness for `variation_seeding` at the parsed tree of
`1. e4 e5 (1... c5) 2. Nf3`: the hypothesis of the third conjunct is
discharged at index 1 (the `e5` node, whose variation holds `c5`). -/
theorem variation_seeding_witness :
    let seq := [MoveNode.mk 2 "e4" true "" "" [],
      MoveNode.mk 3 "e5" false "" "" [[MoveNode.mk 3 "c5" false "" "" []]],
      MoveNode.mk 4 "Nf3" true "" "" []]
    boardAt startBoard seq 2 =
        executeMove (boardAt startBoard seq 1) (seq.get ⟨1, by decide⟩) ∧
    ((processSequence startBoard seq).get? 1).map MoveNode.variations =
      some [[MoveNode.mk 3 "c5" false ""
        "rnbqkbnr/pp1ppppp/8/2p5/4P3/8/PPPP1PPP/RNBQKBNR w KQkq - 0 1" []]] := by
  intro seq
  constructor
  · exact ((variation_seeding startBoard seq 1).2.2 _ (by rfl)).1
  · rw [(variation_seeding startBoard seq 1).1]
    simp only [seq, List.get?_cons_succ, List.get?_cons_zero, Option.map_some',
      MoveNode.variations, List.map_cons, List.map_nil]
    rw [processSequence_cons]
    rw [processSequence_nil]
    rfl

theorem executeMove_of_zeroCand (b : Board) (m : MoveNode)
    (h : zeroCand b m = true) : executeMove b m = b := by
  simp only [zeroCand, Bool.and_eq_true, Bool.not_eq_true'] at h
  obtain ⟨⟨hne, hcas⟩, hm⟩ := h
  simp only [isCastleTok, Bool.or_eq_false_iff, decide_eq_false_iff_not] at hcas
  obtain ⟨⟨⟨hc1, hc2⟩, hc3⟩, hc4⟩ := hcas
  simp only [executeMove, executeMoveA]
  rw [if_neg (by simp [hne]), if_neg (by simp [hc1, hc2]), if_neg (by simp [hc3, hc4])]
  cases hms : matchSan (jsTrim m.san).data with
  | none => rfl
  | some sp =>
    rw [hms] at hm
    simp only at hm ⊢
    rw [if_pos hm]

/-- C1 (amended).  When the candidate **enumeration** of
`executeMove` yields zero squares for a non-castling, grammar-matching
token, the function returns a board equal to its input (and, being total,
raises no error); the corresponding assembled tree node still exists (the
assembled sequence has the same length) and its `positionAfter` is the FEN
of the unchanged board with the **active color flipped** to the mover's
opponent — the board placement is identical to the predecessor's position,
but the position strings differ in the active-color field.  (The original
claim fails in two ways, see the counterexample: when the enumeration is
non-empty but the geometry filter eliminates every candidate, the first
enumerated square is moved anyway; and the stored `positionAfter` is never
string-identical to the predecessor's position because the active color
advances.) -/
theorem unresolvable_token_amended (b0 : Board) (seq : List MoveNode) (i : Nat)
    (m : MoveNode) (hm : seq.get? i = some m)
    (h : zeroCand (boardAt b0 seq i) m = true) :
    executeMove (boardAt b0 seq i) m = boardAt b0 seq i ∧
    boardAt b0 seq (i + 1) = boardAt b0 seq i ∧
    (processSequence b0 seq).length = seq.length ∧
    ((processSequence b0 seq).get? i).map MoveNode.fenAfter =
      some (boardToFen (boardAt b0 seq i) (if m.isWhite then 'b' else 'w')) := by
  have he := executeMove_of_zeroCand _ _ h
  refine ⟨he, ?_, processSequence_length b0 seq, ?_⟩
  · rw [boardAt_succ_of_get? b0 seq i m hm, he]
  · rw [processSequence_get?, hm]
    simp [MoveNode.fenAfter, he]

/-- Witness for `unresolvable_token_amended`: in `1. e4 e4` the second
token resolves to no candidate square (no black pawn can reach e4), the
board is unchanged, and the node's `positionAfter` keeps the placement
after `1. e4` with the active color advanced to White. -/
theorem unresolvable_token_amended_witness :
    let seq := [MoveNode.mk 2 "e4" true "" "" [], MoveNode.mk 3 "e4" false "" "" []]
    executeMove (boardAt startBoard seq 1) (MoveNode.mk 3 "e4" false "" "" []) =
        boardAt startBoard seq 1 ∧
    ((processSequence startBoard seq).get? 1).map MoveNode.fenAfter =
      some "rnbqkbnr/pppppppp/8/8/4P3/8/PPPP1PPP/RNBQKBNR w KQkq - 0 1" := by
  intro seq
  have h := unresolvable_token_amended startBoard seq 1
    (MoveNode.mk 3 "e4" false "" "" []) (by rfl) (by rfl)
  exact ⟨h.1, h.2.2.2.trans (by rfl)⟩

/-- C1 counterexample.  First: for `Rd4` on the initial board, the
enumeration finds the two rooks but the movement-geometry filter removes
both (zero candidates remain after enumeration **and** filtering), yet
`executeMove` does not return the input board — the fallback
`valid[0] || potentials[0]` moves the a1-rook to d4 through its own pawn.
Second: in `1. e4 e4` the second node resolves to nothing and the board is
unchanged, yet its `positionAfter` is **not** equal to its predecessor's
position: the two strings differ in the active-color field. -/
theorem unresolvable_token_counterexample :
    (filterGeomE startBoard 'R' 4 3
        (potentialsOf startBoard ⟨some 'R', none, none, false, 'd', '4', none⟩ true 4 3) =
      .ok [] ∧
     potentialsOf startBoard ⟨some 'R', none, none, false, 'd', '4', none⟩ true 4 3 ≠ [] ∧
     executeMove startBoard (.mk 2 "Rd4" true "" "" []) ≠ startBoard) ∧
    ((processSequence startBoard
        [MoveNode.mk 2 "e4" true "" "" [], MoveNode.mk 3 "e4" false "" "" []]).map
          MoveNode.fenAfter =
      ["rnbqkbnr/pppppppp/8/8/4P3/8/PPPP1PPP/RNBQKBNR b KQkq - 0 1",
       "rnbqkbnr/pppppppp/8/8/4P3/8/PPPP1PPP/RNBQKBNR w KQkq - 0 1"] ∧
     executeMove startBoard (MoveNode.mk 2 "e4" true "" "" []) =
       executeMove (executeMove startBoard (MoveNode.mk 2 "e4" true "" "" []))
         (MoveNode.mk 3 "e4" false "" "" [])) := by
  refine ⟨⟨by rfl, by decide, by decide⟩, ?_, by rfl⟩
  rw [processSequence_cons, processSequence_cons, processSequence_nil]
  rfl

/-! ## C9: the executor and its input board -/

/-- C9 (amended).  `executeMove` returns exactly the board tracked by
`executeMoveA`; the input board value is never mutated (the embedding is
pure because every write in the source targets the copy `b` or a copy made
by `executeCastlingForColor`, never the `board` argument), and on the one
path where the source hands back the very `board` object it was given —
the `catch` path, reached when the geometry filter throws on a bishop or
queen candidate already standing on the destination square — the returned
board is (a fortiori) equal to the input.  So every stored `positionAfter`
is a freshly built string of a board value unaffected by later moves; the
original claim's "always returns a freshly copied board" fails only on the
`catch` path, where the source returns the input object itself (see the
counterexample). -/
theorem executor_frame_amended (b : Board) (m : MoveNode) :
    executeMove b m = (executeMoveA b m).1 ∧
    ((executeMoveA b m).2 = true → (executeMoveA b m).1 = b) := by
  refine ⟨rfl, ?_⟩
  intro hal
  by_cases h1 : (jsTrim m.san).data.isEmpty = true
  · simp [executeMoveA, h1] at hal
  · by_cases h2 : jsTrim m.san = "O-O" ∨ jsTrim m.san = "0-0"
    · simp [executeMoveA, h1, h2] at hal
    · by_cases h3 : jsTrim m.san = "O-O-O" ∨ jsTrim m.san = "0-0-0"
      · simp [executeMoveA, h1, h2, h3] at hal
      · cases hms : matchSan (jsTrim m.san).data with
        | none => simp [executeMoveA, h1, h2, h3, hms] at hal
        | some sp =>
          by_cases h4 : (potentialsOf b sp m.isWhite (8 - (sp.tRank.toNat - 48))
              (sp.tFile.toNat - 97)).isEmpty = true
          · simp [executeMoveA, h1, h2, h3, hms, h4] at hal
          · cases hfe : filterGeomE b (sp.pieceType.getD 'P')
                (8 - (sp.tRank.toNat - 48)) (sp.tFile.toNat - 97)
                (potentialsOf b sp m.isWhite (8 - (sp.tRank.toNat - 48))
                  (sp.tFile.toNat - 97)) with
            | ok valid => simp [executeMoveA, h1, h2, h3, hms, h4, hfe] at hal
            | error e => simp [executeMoveA, h1, h2, h3, hms, h4, hfe]

/-- Witness for `executor_frame_amended` at a board whose only piece is a
white bishop on a8 and the token `Ba8`: the geometry filter throws, the
aliased flag is set, and the theorem yields that the returned board equals
the input. -/
theorem executor_frame_amended_witness :
    (executeMoveA [[some 'B']] (.mk 2 "Ba8" true "" "" [])).2 = true ∧
    (executeMoveA [[some 'B']] (.mk 2 "Ba8" true "" "" [])).1 = [[some 'B']] := by
  refine ⟨by rfl, ?_⟩
  exact (executor_frame_amended [[some 'B']] (.mk 2 "Ba8" true "" "" [])).2 (by rfl)

/-- C9 counterexample.  On the `catch` path the source returns its `board`
argument itself (`return board;`), not a freshly copied board: with a lone
white bishop already standing on the destination square of `Ba8`, the
geometry filter computes a `0 / 0 = NaN` ray step, dereferences
`board[NaN]`, and throws; `executeMoveA`'s flag records that the returned
object is the input itself, refuting "returning a freshly copied board" as
a property of every path (the input is still unmutated). -/
theorem executor_frame_counterexample :
    (executeMoveA [[some 'B']] (.mk 2 "Ba8" true "" "" [])) = ([[some 'B']], true) := by
  rfl

theorem tokStep_comment (s : BState) (t : String) (h : isCommentTok t = true) :
    tokStep s t = .ok { s with comment := commentText t } := by
  simp only [isCommentTok, Bool.and_eq_true, beq_iff_eq, Bool.not_eq_true',
    List.isEmpty_eq_false] at h
  obtain ⟨⟨hne, hh⟩, hl⟩ := h
  simp only [tokStep, commentText]
  rw [if_neg (by simp [hne]), if_pos ⟨hh, hl⟩]

/-- C10.  Two comment tokens with no move token between them: processing
the first and then the second leaves exactly the state produced by the
second alone — the pending comment is overwritten, not accumulated, so the
earlier comment is silently lost and only the last comment's text can reach
the next constructed move node. -/
theorem comment_overwrite (s : BState) (t1 t2 : String) (rest : List String)
    (h1 : isCommentTok t1 = true) (h2 : isCommentTok t2 = true) :
    tokFold (t1 :: t2 :: rest) s = tokFold (t2 :: rest) s ∧
    (tokStep s t1).bind (fun s1 => tokStep s1 t2) = tokStep s t2 := by
  have e1 := tokStep_comment s t1 h1
  have e2 := tokStep_comment { s with comment := commentText t1 } t2 h2
  have e3 := tokStep_comment s t2 h2
  constructor
  · show (t1 :: t2 :: rest).foldlM tokStep s = (t2 :: rest).foldlM tokStep s
    rw [List.foldlM_cons, e1]
    show (t2 :: rest).foldlM tokStep { s with comment := commentText t1 } =
      (t2 :: rest).foldlM tokStep s
    rw [List.foldlM_cons, e2, List.foldlM_cons, e3]
  · rw [e1]
    show tokStep { s with comment := commentText t1 } t2 = tokStep s t2
    rw [e2, e3]

/-- Witness for `comment_overwrite` on the token stream
of `1. (braces a) (braces b) e4`: the node built from `e4` carries `b`. -/
theorem comment_overwrite_witness :
    tokFold ["\x7ba\x7d", "\x7bb\x7d", "e4"] initB = tokFold ["\x7bb\x7d", "e4"] initB ∧
    tokFold ["\x7bb\x7d", "e4"] initB =
      .ok ⟨[[MoveNode.mk 2 "e4" true "b" "" []]], "", true, 1⟩ := by
  exact ⟨(comment_overwrite initB "\x7ba\x7d" "\x7bb\x7d" ["e4"] (by rfl) (by rfl)).1, by rfl⟩

/-- A successful step on a neutral token never changes the pending
comment. -/
theorem tokStep_neutral_comment (s : BState) (t : String) (s' : BState)
    (h : isNeutralTok t = true) (hs : tokStep s t = .ok s') :
    s'.comment = s.comment := by
  simp only [isNeutralTok, Bool.or_eq_true, Bool.and_eq_true, Bool.not_eq_true',
    beq_iff_eq, Option.isSome_iff_exists, List.isEmpty_iff] at h
  simp only [tokStep] at hs
  by_cases h1 : (jsTrim t).data.isEmpty
  · rw [if_pos h1] at hs
    cases hs
    rfl
  · rw [if_neg h1] at hs
    obtain ⟨hshape, hdisj⟩ := h.resolve_left (by simpa using h1)
    have hP : ¬ ((jsTrim t).data.head? = some lbrace ∧
        (jsTrim t).data.getLast? = some rbrace) := by
      rintro ⟨ha, hb⟩
      rw [ha, hb] at hshape
      simp at hshape
    rw [if_neg hP] at hs
    by_cases h3 : jsTrim t = "("
    · rw [if_pos h3] at hs
      cases hs
      rfl
    · rw [if_neg h3] at hs
      by_cases h4 : jsTrim t = ")"
      · rw [if_pos h4] at hs
        split at hs
        · exact absurd hs (by simp)
        · split at hs
          · exact absurd hs (by simp)
          · split at hs
            · cases hs
              rfl
            · cases hs
              rfl
      · rw [if_neg h4] at hs
        cases hnum : numParse (jsTrim t).data with
        | some nb =>
          rw [hnum] at hs
          simp only at hs
          cases hs
          rfl
        | none =>
          rw [hnum] at hs
          simp only at hs
          have hsanF : isSanTok (jsTrim t) = false := by
            rcases hdisj with ((hx | hx) | ⟨v, hx⟩) | hx
            · exact absurd hx h3
            · exact absurd hx h4
            · rw [hnum] at hx
              cases hx
            · exact hx
          rw [if_neg (by simp [hsanF])] at hs
          cases hs
          rfl

/-- Comment preservation extends to a whole run of neutral tokens. -/
theorem fold_neutral_comment (mid : List String) :
    ∀ (s s' : BState), (∀ t ∈ mid, isNeutralTok t = true) →
      tokFold mid s = .ok s' → s'.comment = s.comment := by
  induction mid with
  | nil =>
    intro s s' _ hf
    cases hf
    rfl
  | cons t rest ih =>
    intro s s' hmem hf
    have hf0 : tokStep s t >>= (fun s1 => rest.foldlM tokStep s1) = .ok s' := by
      rw [← List.foldlM_cons]
      exact hf
    cases hstep : tokStep s t with
    | error e =>
      rw [hstep] at hf0
      exact absurd hf0 (by simp [Bind.bind, Except.bind])
    | ok s1 =>
      rw [hstep] at hf0
      have hf1 : tokFold rest s1 = .ok s' := hf0
      have h1 := tokStep_neutral_comment s t s1 (hmem t (by simp)) hstep
      rw [ih s1 s' (fun u hu => hmem u (by simp [hu])) hf1, h1]

/-- The move branch of the builder loop, explicitly: a token of the move
class appends a node carrying the pending comment to the sequence on top of
the stack, clears the comment, flips the side to move, and (after a Black
move) advances the fullmove counter. -/
theorem tokStep_san (s : BState) (mv : String) (top : List MoveNode)
    (more : List (List MoveNode)) (h : isSanClass mv = true)
    (hstk : s.stack = top :: more) :
    tokStep s mv = .ok ⟨(top ++
      [MoveNode.mk (if !s.expectingBlack then 2 * s.moveNumber else 2 * s.moveNumber + 1)
        (jsTrim mv) (!s.expectingBlack) s.comment "" []]) :: more, "",
      !s.expectingBlack, if !s.expectingBlack then s.moveNumber else s.moveNumber + 1⟩ := by
  simp only [isSanClass, Bool.and_eq_true, Bool.not_eq_true', beq_iff_eq,
    Option.isNone_iff_eq_none, List.isEmpty_iff] at h
  obtain ⟨⟨⟨⟨⟨hne, hshape⟩, hnp⟩, hnc⟩, hnum⟩, hsan⟩ := h
  have hP : ¬ ((jsTrim mv).data.head? = some lbrace ∧
      (jsTrim mv).data.getLast? = some rbrace) := by
    rintro ⟨ha, hb⟩
    rw [ha, hb] at hshape
    simp at hshape
  simp only [tokStep]
  rw [if_neg (by simpa using hne), if_neg hP, if_neg (by simpa using hnp),
    if_neg (by simpa using hnc), hnum]
  simp only
  rw [if_pos (by simp [hsan]), hstk]

/-- C6 (amended).  A comment token is stashed without touching any
existing node (first conjunct: the step only replaces the pending comment);
if the next move-class token arrives with only neutral tokens (parentheses,
move numbers, discarded tokens, blanks — in particular **no further
comment**) in between, the node constructed from that move token carries
the comment's text (third conjunct); and a comment token with no following
move token in the chunk leaves the extracted move tree unchanged — it is
discarded (fourth conjunct).  The original claim fails when another
comment token intervenes before the next move token: the pending comment is
overwritten (see `comment_overwrite`), so the earlier comment is attached
to nothing. -/
theorem comment_attach_amended (s : BState) (c : String) (mid : List String)
    (mv : String) (s' : BState) (top : List MoveNode) (more : List (List MoveNode))
    (hc : isCommentTok c = true)
    (hmid : ∀ t ∈ mid, isNeutralTok t = true)
    (hmv : isSanClass mv = true)
    (hfold : tokFold mid { s with comment := commentText c } = .ok s')
    (hstk : s'.stack = top :: more) :
    tokStep s c = .ok { s with comment := commentText c } ∧
    s'.comment = commentText c ∧
    tokFold (c :: (mid ++ [mv])) s = .ok ⟨(top ++
      [MoveNode.mk (if !s'.expectingBlack then 2 * s'.moveNumber else 2 * s'.moveNumber + 1)
        (jsTrim mv) (!s'.expectingBlack) (commentText c) "" []]) :: more, "",
      !s'.expectingBlack, if !s'.expectingBlack then s'.moveNumber else s'.moveNumber + 1⟩ ∧
    (∀ toks : List String, (tokFold (toks ++ [c]) s).map extractMoves =
      (tokFold toks s).map extractMoves) := by
  have e1 := tokStep_comment s c hc
  have hcm : s'.comment = commentText c :=
    fold_neutral_comment mid _ s' hmid hfold
  refine ⟨e1, hcm, ?_, ?_⟩
  · show (c :: (mid ++ [mv])).foldlM tokStep s = _
    rw [List.foldlM_cons, e1]
    show (mid ++ [mv]).foldlM tokStep { s with comment := commentText c } = _
    rw [List.foldlM_append]
    have hfold' : mid.foldlM tokStep { s with comment := commentText c } = .ok s' := hfold
    rw [hfold']
    show [mv].foldlM tokStep s' = _
    rw [List.foldlM_cons, tokStep_san s' mv top more hmv hstk]
    show Except.ok _ = Except.ok _
    rw [hcm]
  · intro toks
    show ((toks ++ [c]).foldlM tokStep s).map extractMoves =
      (toks.foldlM tokStep s).map extractMoves
    rw [List.foldlM_append]
    cases htk : toks.foldlM tokStep s with
    | error e => rfl
    | ok sx =>
      show ([c].foldlM tokStep sx).map extractMoves = _
      rw [List.foldlM_cons, tokStep_comment sx c hc]
      rfl

/-- C6 counterexample.  In the token stream `1. (braces a) (braces b) e4`
the comment token with text `a` **is** followed by a MoveText token in the
same chunk, yet the node constructed from that following move token carries
`b`, and no node carries `a`: the built tree is a single node with comment
`b`, refuting the claim for the earlier comment. -/
theorem comment_attach_counterexample :
    tokFold ["1.", "\x7ba\x7d", "\x7bb\x7d", "e4"] initB =
      .ok ⟨[[MoveNode.mk 2 "e4" true "b" "" []]], "", true, 1⟩ := by rfl

/-- Witness for `comment_attach_amended`: the comment `a`, a move-number
token `2.`, then `e4`; the node built from `e4` carries `a`. -/
theorem comment_attach_amended_witness :
    tokFold ["\x7ba\x7d", "2.", "e4"] initB =
      .ok ⟨[[MoveNode.mk 4 "e4" true "a" "" []]], "", true, 2⟩ := by
  have h := comment_attach_amended initB "\x7ba\x7d" ["2."] "e4" ⟨[[]], "a", false, 2⟩ [] []
    (by rfl)
    (by
      intro t ht
      rw [List.mem_singleton] at ht
      subst ht
      rfl)
    (by rfl) (by rfl) (by rfl)
  exact h.2.2.1.trans (by rfl)

/-! ## C4: a close token with no open variation -/

/-- C4 (behaviour of the source at the failing input).  Processing a
CloseVar token while only the main line is open is **not** a no-op in the
source: `sequenceStack.pop()` removes the main line, and the handler then
reads a property of `sequenceStack[-1]`, i.e. of `undefined`, throwing a
`TypeError`; the chunk-level `catch` then discards the whole chunk.  At the
input `1. e4 ) e5` the builder faults on the `)` token and `parsePGN`
returns no game at all, where the claim (and the spec's stated intent)
require the close token to be ignored and the chunk to parse to a game with
the two moves `e4`, `e5`. -/
theorem unbalanced_close_fault :
    tokStep ⟨[[MoveNode.mk 2 "e4" true "" "" []]], "", true, 1⟩ ")" = .error () ∧
    chunkGameE "1. e4 ) e5" = .error () ∧
    parsePGN "1. e4 ) e5" = [] := by
  exact ⟨rfl, rfl, rfl⟩

/-! ## C5: chunk-level fault isolation -/

/-- C5.  `parsePGN` is a total function whose result is assembled
chunk-locally: the output is exactly the per-chunk results of the filtered
chunk list (first conjunct, the definitional decomposition; the worst
outcome is the empty list), and a chunk whose processing raises an internal
fault (`chunkGameE c = .error ()`) is skipped without affecting the records
produced for the chunks before and after it (second conjunct). -/
theorem chunk_fault_isolated :
    (∀ text : String, parsePGN text =
      if (jsTrim text).data.isEmpty then [] else processChunks (rawGamesOf text)) ∧
    (∀ (cs1 cs2 : List String) (c : String), chunkGameE c = .error () →
      processChunks (cs1 ++ c :: cs2) = processChunks (cs1 ++ cs2)) := by
  constructor
  · intro text
    rfl
  · intro cs1 cs2 c h
    simp [processChunks, List.filterMap_append, List.filterMap_cons, chunkResult, h]

/-- Witness for `chunk_fault_isolated`: a faulting chunk (the unbalanced
close of `1. e4 )`) sitting after a well-formed header-only chunk is
dropped while the sibling chunk's record is unaffected. -/
theorem chunk_fault_isolated_witness :
    parsePGN "abc" = (if (jsTrim "abc").data.isEmpty then []
      else processChunks (rawGamesOf "abc")) ∧
    processChunks (["[Event \"a\"]"] ++ "1. e4 )" :: []) =
      processChunks (["[Event \"a\"]"] ++ []) := by
  exact ⟨chunk_fault_isolated.1 "abc",
    chunk_fault_isolated.2 ["[Event \"a\"]"] [] "1. e4 )" (by rfl)⟩

/-! ## C8: chunks without parsable moves -/

/-- A successful step on a non-move token keeps every sequence on the stack
empty: only the move branch ever appends a node. -/
theorem tokStep_nosan_nil (s : BState) (t : String) (s' : BState)
    (hsc : isSanClass t = false) (hall : ∀ q ∈ s.stack, q = ([] : List MoveNode))
    (hs : tokStep s t = .ok s') : ∀ q ∈ s'.stack, q = ([] : List MoveNode) := by
  simp only [tokStep] at hs
  by_cases h1 : (jsTrim t).data.isEmpty
  · rw [if_pos h1] at hs
    cases hs
    exact hall
  · rw [if_neg h1] at hs
    by_cases h2 : (jsTrim t).data.head? = some lbrace ∧
        (jsTrim t).data.getLast? = some rbrace
    · rw [if_pos h2] at hs
      cases hs
      exact hall
    · rw [if_neg h2] at hs
      by_cases h3 : jsTrim t = "("
      · rw [if_pos h3] at hs
        cases hs
        intro q hq
        rcases List.mem_cons.mp hq with rfl | hq2
        · rfl
        · exact hall q hq2
      · rw [if_neg h3] at hs
        by_cases h4 : jsTrim t = ")"
        · rw [if_pos h4] at hs
          rcases hstk : s.stack with _ | ⟨fin, rest2⟩
          · rw [hstk] at hs
            exact absurd hs (by simp)
          · rw [hstk] at hs
            simp only at hs
            rcases rest2 with _ | ⟨top, more⟩
            · exact absurd hs (by simp)
            · simp only at hs
              have htop : top = [] := hall top (by simp [hstk])
              rw [if_pos (by simp [htop, List.isEmpty_nil])] at hs
              cases hs
              intro q hq
              exact hall q (by simp [hstk]; simp at hq; tauto)
        · rw [if_neg h4] at hs
          cases hnum : numParse (jsTrim t).data with
          | some nb =>
            rw [hnum] at hs
            simp only at hs
            cases hs
            exact hall
          | none =>
            rw [hnum] at hs
            simp only at hs
            by_cases h6 : isSanTok (jsTrim t) = true
            · exfalso
              have hshapeF : ((jsTrim t).data.head? == some lbrace &&
                  (jsTrim t).data.getLast? == some rbrace) = false := by
                rcases hF : ((jsTrim t).data.head? == some lbrace &&
                    (jsTrim t).data.getLast? == some rbrace) with _ | _
                · rfl
                · exact absurd (by simpa [Bool.and_eq_true, beq_iff_eq] using hF) h2
              have : isSanClass t = true := by
                simp [isSanClass, h1, hshapeF, h3, h4, hnum, h6]
              rw [this] at hsc
              cases hsc
            · rw [if_neg (by simpa using h6)] at hs
              cases hs
              exact hall

/-- Without move-class tokens the whole builder run keeps every stack
sequence empty, so the extracted move tree is empty. -/
theorem tokFold_nosan_nil (toks : List String) :
    ∀ (s s' : BState), (∀ t ∈ toks, isSanClass t = false) →
      (∀ q ∈ s.stack, q = ([] : List MoveNode)) → tokFold toks s = .ok s' →
      extractMoves s' = [] ∧ ∀ q ∈ s'.stack, q = ([] : List MoveNode) := by
  induction toks with
  | nil =>
    intro s s' _ hall hf
    cases hf
    refine ⟨?_, hall⟩
    cases hgl : s.stack.getLast? with
    | none => simp [extractMoves, List.getLastD_eq_getLast?, hgl]
    | some x =>
      obtain ⟨hne2, hxe⟩ :=
        List.mem_getLast?_eq_getLast (l := s.stack) (x := x) (by simp [hgl])
      have hx : x ∈ s.stack := by
        rw [hxe]
        exact List.getLast_mem hne2
      simp [extractMoves, List.getLastD_eq_getLast?, hgl, hall x hx]
  | cons t rest ih =>
    intro s s' hmem hall hf
    have hf0 : tokStep s t >>= (fun s1 => rest.foldlM tokStep s1) = .ok s' := by
      rw [← List.foldlM_cons]
      exact hf
    cases hstep : tokStep s t with
    | error e =>
      rw [hstep] at hf0
      exact absurd hf0 (by simp [Bind.bind, Except.bind])
    | ok s1 =>
      rw [hstep] at hf0
      have hall1 := tokStep_nosan_nil s t s1 (hmem t (by simp)) hall hstep
      exact ih s1 s' (fun u hu => hmem u (by simp [hu])) hall1 hf0

/-- C8 (amended).  For a chunk whose processing does not fault: if its
tokens contain no move-class token, the chunk contributes exactly one Game
record with an empty move sequence when it yields at least one header tag
pair, and no record at all when it yields none.  This governs only the
chunks that survive the upstream content filter: every chunk `parsePGN`
processes passes `contentFilter` (second conjunct), which requires the
literal `[Event` or digits followed by a dot — so a headers-only chunk
without an `Event`-tag-shaped substring and without move-number text is
dropped even though it would yield header pairs (the correction to the
original claim; see the counterexample). -/
theorem headers_only_amended (raw : String) (st : BState) (b : Board)
    (h1 : tokFold (chunkTokens raw) initB = .ok st)
    (h2 : ∀ t ∈ chunkTokens raw, isSanClass t = false)
    (h3 : fenToBoard (chunkStartFen (chunkHeaders raw)) = .ok b) :
    chunkResult raw = (if chunkHeaders raw = [] then none
      else some ⟨chunkHeaders raw, [], chunkStartFen (chunkHeaders raw)⟩) ∧
    (∀ (text : String) (c : String), c ∈ rawGamesOf text → contentFilter c = true) := by
  have hmext := (tokFold_nosan_nil (chunkTokens raw) initB st h2
    (by
      intro q hq
      simp [initB] at hq
      exact hq) h1).1
  constructor
  · have hE : chunkGameE raw = .ok (if chunkHeaders raw = [] then none
        else some ⟨chunkHeaders raw, [], chunkStartFen (chunkHeaders raw)⟩) := by
      unfold chunkGameE
      rw [h1]
      show (fenToBoard (chunkStartFen (chunkHeaders raw)) >>= fun b =>
        pure (if ¬ (processSequence b (extractMoves st)).isEmpty ∨
            ¬ (chunkHeaders raw).isEmpty then
          some (Game.mk (chunkHeaders raw) (processSequence b (extractMoves st))
            (chunkStartFen (chunkHeaders raw))) else none)) = _
      rw [h3]
      show Except.ok (if ¬ (processSequence b (extractMoves st)).isEmpty ∨
          ¬ (chunkHeaders raw).isEmpty then
        some (Game.mk (chunkHeaders raw) (processSequence b (extractMoves st))
          (chunkStartFen (chunkHeaders raw))) else none) = _
      rw [hmext, processSequence_nil]
      by_cases hh : chunkHeaders raw = []
      · simp [hh]
      · simp [hh, List.isEmpty_iff]
    simp only [chunkResult, hE]
  · intro text c hc
    exact (List.mem_filter.mp hc).2

/-- Witness for `headers_only_amended` at the chunk `[Event "e"]`: one
header pair, no tokens, one Game record with an empty move sequence. -/
theorem headers_only_amended_witness :
    chunkResult "[Event \"e\"]" =
      some ⟨[("Event", "e")], [], initialFen⟩ := by
  have h := headers_only_amended "[Event \"e\"]" initB startBoard (by rfl)
    (by
      intro t ht
      have : chunkTokens "[Event \"e\"]" = [] := by rfl
      rw [this] at ht
      cases ht)
    (by rfl)
  exact h.1.trans (by rfl)

/-- C8 counterexample.  The input `[White "x"]` is a single chunk that
yields one header tag pair and no move tokens, yet `parsePGN` emits no Game
record for it: the chunk contains neither the literal `[Event` nor digits
followed by a dot, so the content filter discards it before processing. -/
theorem headers_only_counterexample :
    chunkHeaders "[White \"x\"]" = [("White", "x")] ∧
    chunkTokens "[White \"x\"]" = [] ∧
    contentFilter (jsTrim "[White \"x\"]") = false ∧
    parsePGN "[White \"x\"]" = [] := by
  exact ⟨rfl, rfl, rfl, rfl⟩

theorem headerPhase_false (ls : List String) :
    ∀ (hs : List (String × String)) (mt : List String),
      headerPhase ls false hs mt =
        (hs, mt ++ (ls.map jsTrim).filter (fun t => !t.data.isEmpty)) := by
  induction ls with
  | nil =>
    intro hs mt
    simp [headerPhase]
  | cons l rest ih =>
    intro hs mt
    simp only [headerPhase]
    by_cases hemp : (jsTrim l).data.isEmpty
    · rw [if_pos hemp, ih]
      simp [List.filter_cons, List.isEmpty_iff.mp hemp]
    · rw [if_neg hemp, if_neg (by simp), ih]
      simp [List.filter_cons, hemp]

theorem headerPhase_true (ls : List String) :
    ∀ (hs : List (String × String)) (mt : List String),
      headerPhase ls true hs mt =
        ((ls.take (ls.findIdx c7NotHeaderLine)).foldl hdrStep hs,
         mt ++ ((ls.drop (ls.findIdx c7NotHeaderLine)).map jsTrim).filter
           (fun t => !t.data.isEmpty)) := by
  induction ls with
  | nil =>
    intro hs mt
    simp [headerPhase]
  | cons l rest ih =>
    intro hs mt
    by_cases hnb : c7NotHeaderLine l = true
    · have hfi : (l :: rest).findIdx c7NotHeaderLine = 0 := by
        simp [List.findIdx_cons, hnb]
      rw [hfi]
      have hparts := (by
        simpa [c7NotHeaderLine, Bool.and_eq_true, Bool.not_eq_true'] using hnb :
          (jsTrim l).data.isEmpty = false ∧
            ((jsTrim l).data.head? == some '[') = false)
      obtain ⟨hne, hnh⟩ := hparts
      simp only [headerPhase, List.take_zero, List.drop_zero, List.foldl_nil]
      rw [if_neg (by simp [hne]), if_neg (by
        rintro ⟨_, hcontra⟩
        rw [hcontra] at hnh
        simp at hnh)]
      rw [headerPhase_false]
      simp [List.filter_cons, hne]
    · have hfi : (l :: rest).findIdx c7NotHeaderLine =
          rest.findIdx c7NotHeaderLine + 1 := by
        simp [List.findIdx_cons, hnb]
      rw [hfi]
      simp only [List.take_succ_cons, List.drop_succ_cons, List.foldl_cons]
      have hnb' := (by simpa [c7NotHeaderLine, Bool.and_eq_true,
        Bool.not_eq_true'] using hnb :
          ¬ ((jsTrim l).data.isEmpty = false ∧
            ((jsTrim l).data.head? == some '[') = false))
      simp only [headerPhase]
      by_cases hemp : (jsTrim l).data.isEmpty
      · rw [if_pos hemp]
        have hmn : headerMatch (jsTrim l) = none := by
          have hdata : (jsTrim l).data = [] := List.isEmpty_iff.mp hemp
          simp [headerMatch, hdata]
        have hstep : hdrStep hs l = hs := by simp [hdrStep, hmn]
        rw [hstep, ih]
      · have hh : (jsTrim l).data.head? = some '[' := by
          rcases Decidable.not_and_iff_or_not.mp hnb' with hx | hx
          · exact absurd (by simpa using hemp) hx
          · simpa using Decidable.not_not.mp (by simpa using hx)
        rw [if_neg hemp, if_pos ⟨trivial, hh⟩]
        cases hm : headerMatch (jsTrim l) with
        | some kv =>
          have hstep : hdrStep hs l = setHeader hs kv.1 kv.2 := by
            simp [hdrStep, hm]
          rw [hstep]
          exact ih (setHeader hs kv.1 kv.2) mt
        | none =>
          have hstep : hdrStep hs l = hs := by simp [hdrStep, hm]
          rw [hstep]
          exact ih hs mt

/-- C7 (amended).  The transition out of header mode is permanent, but it
happens at the first non-blank line that does **not start with `[`** — not
at the first line failing the full header shape.  While in header mode,
`[`-starting lines that fail the header shape are ignored without ending
header parsing; once the transition happens, every later non-blank line
(even a header-shaped one) is move text.  The whole source loop equals the
take/drop description `c7AmendedPhase`. -/
theorem header_transition_amended (lines : List String) :
    headerPhase lines true [] [] = c7AmendedPhase lines := by
  rw [headerPhase_true]
  rfl

/-- C7 counterexample.  In the chunk lines `[Bad`, `[Event "x"]`, `1. e4`
the first non-blank line does not match the header shape, so under the
claim header parsing would end there and the later header-shaped line
would be move text; the source instead ignores `[Bad` (it starts with `[`)
and still collects `Event`, so the source loop and the claim's description
(`c7SpecPhase`, modelled from the claim's words) disagree at this input. -/
theorem header_transition_counterexample :
    headerPhase ["[Bad", "[Event \"x\"]", "1. e4"] true [] [] =
      ([("Event", "x")], ["1. e4"]) ∧
    c7SpecPhase ["[Bad", "[Event \"x\"]", "1. e4"] true [] [] =
      ([], ["[Bad", "[Event \"x\"]", "1. e4"]) ∧
    headerPhase ["[Bad", "[Event \"x\"]", "1. e4"] true [] [] ≠
      c7SpecPhase ["[Bad", "[Event \"x\"]", "1. e4"] true [] [] := by
  refine ⟨rfl, rfl, ?_⟩
  intro h
  rw [show headerPhase ["[Bad", "[Event \"x\"]", "1. e4"] true [] [] =
    ([("Event", "x")], ["1. e4"]) from rfl] at h
  rw [show c7SpecPhase ["[Bad", "[Event \"x\"]", "1. e4"] true [] [] =
    ([], ["[Bad", "[Event \"x\"]", "1. e4"]) from rfl] at h
  simp at h

theorem repr_digit_single (n : Nat) (h1 : 1 ≤ n) (h2 : n ≤ 9) :
    ∃ ch, (Nat.repr n).data = [ch] ∧ isDigitChar ch = true ∧ digitVal ch = n ∧
      ch ≠ '/' ∧ ch ≠ ' ' := by
  interval_cases n <;> exact ⟨_, rfl, by decide, by decide, by decide, by decide⟩

theorem pieceChar_facts {ch : Char} (h : ch ∈ pieceChars) :
    isDigitChar ch = false ∧ ch ≠ '/' ∧ ch ≠ ' ' := by
  fin_cases h <;> exact ⟨by decide, by decide, by decide⟩

theorem fenRowFill_rowFenAux (row : List Cell) :
    ∀ (empty : Nat) (cells : List Cell) (c : Nat),
      (∀ x ∈ row, cellOk x = true) → empty + row.length ≤ 9 →
      fenRowFill cells c (rowFenAux row empty) = writeCells cells (c + empty) row := by
  induction row with
  | nil =>
    intro empty cells c _ hb
    by_cases h0 : empty = 0
    · subst h0
      simp [rowFenAux, emitEmpty, fenRowFill, writeCells]
    · obtain ⟨ch, hch, hdig, hval, _, _⟩ :=
        repr_digit_single empty (by omega) (by omega)
      simp [rowFenAux, emitEmpty, h0, hch, fenRowFill, hdig, hval, writeCells]
  | cons x rest ih =>
    intro empty cells c hv hb
    simp only [List.length_cons] at hb
    cases x with
    | none =>
      simp only [rowFenAux]
      rw [ih (empty + 1) cells c (fun y hy => hv y (by simp [hy])) (by omega)]
      simp only [writeCells]
      rfl
    | some ch =>
      have hmem : ch ∈ pieceChars := by
        have := hv (some ch) (by simp)
        simpa [cellOk] using this
      have hnd := (pieceChar_facts hmem).1
      by_cases h0 : empty = 0
      · subst h0
        rw [show rowFenAux (some ch :: rest) 0 = ch :: rowFenAux rest 0 by
          simp [rowFenAux, emitEmpty]]
        rw [show fenRowFill cells c (ch :: rowFenAux rest 0) =
          fenRowFill (setExtC cells c (some ch)) (c + 1) (rowFenAux rest 0) by
            simp [fenRowFill, hnd]]
        rw [ih 0 (setExtC cells c (some ch)) (c + 1)
          (fun y hy => hv y (by simp [hy])) (by omega)]
        simp [writeCells]
      · obtain ⟨d, hd, hdig, hval, _, _⟩ :=
          repr_digit_single empty (by omega) (by omega)
        simp only [rowFenAux, emitEmpty, if_neg h0, hd, List.singleton_append]
        rw [show fenRowFill cells c (d :: ch :: rowFenAux rest 0) =
          fenRowFill (setExtC cells (c + empty) (some ch)) (c + empty + 1)
            (rowFenAux rest 0) by
            simp [fenRowFill, hdig, hval, hnd]]
        rw [ih 0 (setExtC cells (c + empty) (some ch)) (c + empty + 1)
          (fun y hy => hv y (by simp [hy])) (by omega)]
        simp [writeCells]

theorem setExtC_append (A : List Cell) (x : Cell) (B : List Cell) (v : Cell) :
    setExtC (A ++ x :: B) A.length v = A ++ v :: B := by
  induction A with
  | nil => rfl
  | cons a A' ih => simp [setExtC, ih]

theorem writeCells_replicate (row : List Cell) :
    ∀ A : List Cell,
      writeCells (A ++ List.replicate row.length none) A.length row = A ++ row := by
  induction row with
  | nil =>
    intro A
    simp [writeCells]
  | cons x rest ih =>
    intro A
    rw [show (x :: rest).length = rest.length + 1 from rfl, List.replicate_succ]
    cases x with
    | none =>
      show writeCells (A ++ none :: List.replicate rest.length none)
        (A.length) (none :: rest) = A ++ none :: rest
      simp only [writeCells]
      have h2 : A ++ none :: List.replicate rest.length none =
          (A ++ [none]) ++ List.replicate rest.length none := by simp
      rw [h2, show A.length + 1 = (A ++ [(none : Cell)]).length by simp, ih]
      simp
    | some ch =>
      show writeCells (A ++ none :: List.replicate rest.length none)
        (A.length) (some ch :: rest) = A ++ some ch :: rest
      simp only [writeCells]
      rw [setExtC_append]
      have h2 : A ++ some ch :: List.replicate rest.length none =
          (A ++ [some ch]) ++ List.replicate rest.length none := by simp
      rw [h2, show A.length + 1 = (A ++ [(some ch : Cell)]).length by simp, ih]
      simp

theorem row_roundtrip (row : List Cell) (hlen : row.length = 8)
    (hv : ∀ x ∈ row, cellOk x = true) :
    fenRowFill (List.replicate 8 none) 0 (rowToFenL row) = row := by
  rw [show rowToFenL row = rowFenAux row 0 from rfl,
    fenRowFill_rowFenAux row 0 (List.replicate 8 none) 0 hv (by omega)]
  have := writeCells_replicate row []
  rw [hlen] at this
  simpa using this

theorem rowFenAux_chars (row : List Cell) :
    ∀ empty : Nat, (∀ x ∈ row, cellOk x = true) → empty + row.length ≤ 9 →
      ∀ ch ∈ rowFenAux row empty, ch ≠ '/' ∧ ch ≠ ' ' := by
  induction row with
  | nil =>
    intro empty hv hb ch hch
    by_cases h0 : empty = 0
    · subst h0
      simp [rowFenAux, emitEmpty] at hch
    · obtain ⟨d, hd, _, _, hs1, hs2⟩ := repr_digit_single empty (by omega) (by omega)
      simp [rowFenAux, emitEmpty, h0, hd] at hch
      subst hch
      exact ⟨hs1, hs2⟩
  | cons x rest ih =>
    intro empty hv hb ch hch
    simp only [List.length_cons] at hb
    cases x with
    | none =>
      exact ih (empty + 1) (fun y hy => hv y (by simp [hy])) (by omega) ch
        (by simpa [rowFenAux] using hch)
    | some p =>
      have hmem : p ∈ pieceChars := by
        have := hv (some p) (by simp)
        simpa [cellOk] using this
      have hrest := ih 0 (fun y hy => hv y (by simp [hy])) (by omega)
      by_cases h0 : empty = 0
      · subst h0
        rw [show rowFenAux (some p :: rest) 0 = p :: rowFenAux rest 0 by
          simp [rowFenAux, emitEmpty]] at hch
        rcases List.mem_cons.mp hch with rfl | hch2
        · exact ⟨(pieceChar_facts hmem).2.1, (pieceChar_facts hmem).2.2⟩
        · exact hrest ch hch2
      · obtain ⟨d, hd, _, _, hs1, hs2⟩ := repr_digit_single empty (by omega) (by omega)
        rw [show rowFenAux (some p :: rest) empty = d :: p :: rowFenAux rest 0 by
          simp [rowFenAux, emitEmpty, h0, hd]] at hch
        rcases List.mem_cons.mp hch with rfl | hch2
        · exact ⟨hs1, hs2⟩
        · rcases List.mem_cons.mp hch2 with rfl | hch3
          · exact ⟨(pieceChar_facts hmem).2.1, (pieceChar_facts hmem).2.2⟩
          · exact hrest ch hch3

theorem splitChar_not_mem (d : Char) (xs : List Char) (h : d ∉ xs) :
    splitChar d xs = [xs] := by
  induction xs with
  | nil => rfl
  | cons c rest ih =>
    have hcd : c ≠ d := fun he => h (by simp [he])
    have := ih (fun hm => h (by simp [hm]))
    simp [splitChar, hcd, this]

theorem splitChar_append (d : Char) (xs ys : List Char) (h : d ∉ xs) :
    splitChar d (xs ++ d :: ys) = xs :: splitChar d ys := by
  induction xs with
  | nil => simp [splitChar]
  | cons c rest ih =>
    have hcd : c ≠ d := fun he => h (by simp [he])
    have := ih (fun hm => h (by simp [hm]))
    simp [splitChar, hcd, this]

theorem splitChar_intercal (d : Char) (ps : List (List Char)) :
    ps ≠ [] → (∀ p ∈ ps, d ∉ p) → splitChar d (intercalChar d ps) = ps := by
  induction ps with
  | nil => intro h; exact absurd rfl h
  | cons p rest ih =>
    intro _ hall
    cases rest with
    | nil => exact splitChar_not_mem d p (hall p (by simp))
    | cons q rest2 =>
      rw [show intercalChar d (p :: q :: rest2) = p ++ d :: intercalChar d (q :: rest2)
        from rfl]
      rw [splitChar_append d p _ (hall p (by simp))]
      rw [ih (by simp) (fun u hu => hall u (by simp [hu]))]

theorem intercal_mem (d : Char) (ps : List (List Char)) (ch : Char) :
    ch ∈ intercalChar d ps → ch = d ∨ ∃ p ∈ ps, ch ∈ p := by
  induction ps with
  | nil => intro h; simp [intercalChar] at h
  | cons p rest ih =>
    intro h
    cases rest with
    | nil =>
      simp only [intercalChar] at h
      exact Or.inr ⟨p, by simp, h⟩
    | cons q rest2 =>
      rw [show intercalChar d (p :: q :: rest2) = p ++ d :: intercalChar d (q :: rest2)
        from rfl] at h
      rcases List.mem_append.mp h with hp | hd
      · exact Or.inr ⟨p, by simp, hp⟩
      · rcases List.mem_cons.mp hd with rfl | hrest
        · exact Or.inl rfl
        · rcases ih hrest with he | ⟨u, hu, hcu⟩
          · exact Or.inl he
          · exact Or.inr ⟨u, by simp [hu], hcu⟩

theorem set_append_len {α : Type} (A : List α) (x : α) (t : List α) (v : α) :
    (A ++ x :: t).set A.length v = A ++ v :: t := by
  induction A with
  | nil => rfl
  | cons a A' ih => simp [List.set, ih]

theorem getD_append_len {α : Type} (A : List α) (x : α) (t : List α) (d : α) :
    (A ++ x :: t).getD A.length d = x := by
  induction A with
  | nil => rfl
  | cons a A' ih => simpa using ih

theorem fillRows_ok (rows : List (List Cell)) :
    ∀ A : Board, A.length + rows.length ≤ 8 →
      (∀ row ∈ rows, row.length = 8 ∧ ∀ x ∈ row, cellOk x = true) →
      fillRows (A ++ List.replicate (8 - A.length) (List.replicate 8 none)) A.length
          (rows.map rowToFenL) =
        .ok (A ++ rows ++
          List.replicate (8 - A.length - rows.length) (List.replicate 8 none)) := by
  induction rows with
  | nil =>
    intro A _ _
    simp [fillRows]
  | cons row rest ih =>
    intro A hb hrows
    simp only [List.length_cons] at hb
    have hr8 : A.length < 8 := by omega
    have hrep : List.replicate (8 - A.length) (List.replicate 8 (none : Cell)) =
        List.replicate 8 (none : Cell) ::
          List.replicate (8 - A.length - 1) (List.replicate 8 none) := by
      have h1 : 8 - A.length = (8 - A.length - 1) + 1 := by omega
      conv_lhs => rw [h1, List.replicate_succ]
    simp only [List.map_cons, fillRows, if_pos hr8, hrep]
    rw [getD_append_len, set_append_len]
    rw [row_roundtrip row (hrows row (by simp)).1 (hrows row (by simp)).2]
    have harr : 8 - (A ++ [row]).length = 8 - A.length - 1 := by
      simp
      omega
    have hA' : A ++ row :: List.replicate (8 - A.length - 1) (List.replicate 8 none) =
        (A ++ [row]) ++
          List.replicate (8 - (A ++ [row]).length) (List.replicate 8 none) := by
      rw [harr, List.append_assoc, List.singleton_append]
    rw [hA', show A.length + 1 = (A ++ [row]).length by simp]
    rw [ih (A ++ [row]) (by simp; omega)
      (fun u hu => hrows u (by simp [hu]))]
    have harith : 8 - (A ++ [row]).length - rest.length =
        8 - A.length - (rest.length + 1) := by
      simp
      omega
    rw [harith]
    simp [List.append_assoc]

/-- C3.  Converting a valid 8×8 board (each cell empty or a valid piece
letter) to its position string and parsing that string back yields the
original board, for any active color: the trailing fields after the
placement are ignored by `fenToBoard`.  This is
`fenToBoard (boardToFen board) = board`, the round trip of the claim. -/
theorem fen_round_trip (b : Board) (active : Char) (h : validBoard b = true) :
    fenToBoard (boardToFen b active) = .ok b := by
  simp only [validBoard, Bool.and_eq_true, beq_iff_eq, List.all_eq_true] at h
  obtain ⟨hlen, hrows⟩ := h
  have hrows' : ∀ row ∈ b, row.length = 8 ∧ ∀ x ∈ row, cellOk x = true := by
    intro row hr
    have := hrows row hr
    simp only [Bool.and_eq_true, beq_iff_eq, List.all_eq_true] at this
    exact this
  have hchars : ∀ p ∈ b.map rowToFenL, ∀ ch ∈ p, ch ≠ '/' ∧ ch ≠ ' ' := by
    intro p hp ch hch
    obtain ⟨row, hrow, rfl⟩ := List.mem_map.mp hp
    exact rowFenAux_chars row 0 (hrows' row hrow).2
      (by rw [(hrows' row hrow).1]; omega) ch hch
  have hnospace : ' ' ∉ intercalChar '/' (b.map rowToFenL) := by
    intro hmem
    rcases intercal_mem '/' _ _ hmem with he | ⟨p, hp, hchp⟩
    · exact absurd he (by decide)
    · exact (hchars p hp ' ' hchp).2 rfl
  have hdata : (boardToFen b active).data = intercalChar '/' (b.map rowToFenL) ++
      ' ' :: active :: (String.mk [' '] ++ "KQkq - 0 1").data := rfl
  have hne : (boardToFen b active).data.isEmpty = false := by
    rw [hdata]
    simp
  simp only [fenToBoard]
  rw [if_neg (by simp [hne]), hdata, splitChar_append ' ' _ _ hnospace]
  simp only [List.headD_cons]
  rw [splitChar_intercal '/' (b.map rowToFenL)
    (by
      intro hmap
      have : b = [] := by simpa using hmap
      rw [this] at hlen
      simp at hlen)
    (fun p hp hmem => (hchars p hp '/' hmem).1 rfl)]
  have hfill := fillRows_ok b [] (by simp [hlen]) hrows'
  simpa [hlen] using hfill

/-- Witness for `fen_round_trip` at the standard starting position. -/
theorem fen_round_trip_witness :
    validBoard startBoard = true ∧
    fenToBoard (boardToFen startBoard 'w') = .ok startBoard := by
  exact ⟨by rfl, fen_round_trip startBoard 'w' (by rfl)⟩
